import Mathlib

/-!
Verification of the cosignerd signing-decision engine and its anti-replay
ledger, as a shallow embedding of `src/processing.rs` and `src/database/`.

Modelling conventions:
* Byte strings (txids, DER signatures, public keys) are abstracted to `Nat`
  or `List Nat`; the code only moves them around and compares them.
* The opaque secp256k1 primitives (`from_secret_key`, deterministic `sign`,
  `serialize_der`) are parameters of the embedding (structure `Secp`): the
  code treats them as black boxes.
* The sqlite `signed_outpoints` table is a list of rows in insertion order;
  each `db_exec` call is one committed transaction, so a failing INSERT
  leaves the table unchanged.  Storage-level I/O failures of an INSERT are
  injected through an explicit oracle (`insFail`); lookup I/O failures are
  not modelled (they only produce an early `Database` error before any state
  change).
* `process_sign_message` is given the ledger explicitly and returns the
  final ledger together with the ordered list of database accesses it
  performed, so that frame properties ("no ledger access") can be stated.
  A failed `assert!` (a Rust panic) is a distinguished outcome `panicked`.
-/

set_option maxHeartbeats 1000000

namespace Cosignerd

/-- An outpoint, `bitcoin::OutPoint`: the (transaction id, output index) pair
identifying the spent output.  Txids are abstracted to naturals. -/
structure OutPoint where
  txid : Nat
  vout : Nat
deriving DecidableEq, Repr

/-- Raw signature bytes (a DER-encoded ECDSA signature, possibly with a
sighash-type byte appended), abstracted to a list of naturals. -/
abbrev SigBytes := List Nat

/-- Encoded public keys, abstracted. -/
abbrev PubKey := Nat

/-- The opaque secp256k1 primitives the code uses: public-key derivation
(`PublicKey::from_secret_key`), deterministic signing (`secp.sign`, RFC6979)
and DER serialization (`serialize_der`).  They are external library black
boxes, so the embedding takes them as parameters. -/
structure Secp where
  pubOf : Nat → PubKey
  sign : Nat → Nat → Nat
  der : Nat → SigBytes

/-- `SigHashType::All as u8`, the byte pushed after the DER bytes. -/
def sigHashAll : Nat := 1

/-- One input of the Spend transaction as `process_sign_message` observes it:
the txin's `previous_output` together with the PSBT input data at the same
index: its partial-signature map (keyed by encoded public key, a BTreeMap)
and the result of `signature_hash_internal_input` for this index (`none`
models `InputSatisfactionError`, i.e. missing input-satisfaction data).  A
PSBT always carries exactly one PSBT input per txin, so the two lists of the
source are fused.  The sighash does not depend on the partial-signature
maps, so it is per-input data for the duration of one call. -/
structure SpendTxInput where
  previous_output : OutPoint
  partial_sigs : List (PubKey × SigBytes)
  sighash : Option Nat
deriving DecidableEq, Repr

/-- The Spend transaction as the code observes it (`SpendTransaction`): an
ordered list of inputs and the `is_finalized` flag. -/
structure SpendTx where
  inputs : List SpendTxInput
  finalized : Bool
deriving DecidableEq, Repr

/-- `BTreeMap::get` on a partial-signature map. -/
def sigsGet (m : List (PubKey × SigBytes)) (k : PubKey) : Option SigBytes :=
  (m.find? (fun p => p.fst == k)).map Prod.snd

/-- `BTreeMap::insert` on a partial-signature map: replaces the value bound
to `k` when present, appends the binding otherwise.  (The source also gets
back the previous binding; the embedding reads it off with `sigsGet` before
inserting.) -/
def sigsInsert (m : List (PubKey × SigBytes)) (k : PubKey) (v : SigBytes) :
    List (PubKey × SigBytes) :=
  match m with
  | [] => [(k, v)]
  | p :: rest => if p.fst = k then (k, v) :: rest else p :: sigsInsert rest k v

/-- The `signed_outpoints` table (`database/schema.rs`): rows
`(txid, vout, signature)` in insertion order.  The signature column holds
the DER serialization of the secp signature. -/
abbrev Ledger := List (OutPoint × SigBytes)

/-- Causes of a `DatabaseError`.  The source wraps a formatted string; the
embedding distinguishes the constraint violation raised by the
`UNIQUE(txid, vout)` schema constraint, injected storage I/O failures, and
the two integrity-check failures of `check_db`. -/
inductive DatabaseError
  | uniqueViolation
  | ioFailure
  | versionMismatch
  | networkMismatch
deriving DecidableEq, Repr

/-- `db_signed_outpoint` (`database/mod.rs:99`): SELECT the rows whose
(txid, vout) equal the argument, then `rows.pop()` — the last row of the
result. -/
def db_signed_outpoint (l : Ledger) (o : OutPoint) : Option SigBytes :=
  ((l.filter (fun r => r.fst == o)).map Prod.snd).getLast?

/-- `db_insert_signed_outpoint`: INSERT INTO signed_outpoints
(txid, vout, signature).  The `UNIQUE(txid, vout)` constraint
(`database/schema.rs:13`) makes the INSERT fail when a row for this outpoint
already exists, and the enclosing `db_exec` transaction is rolled back, so
an error leaves the table unchanged.  The source function takes the secp
signature and stores its `serialize_der` bytes; the embedding takes the
serialized bytes directly. -/
def db_insert_signed_outpoint (l : Ledger) (o : OutPoint) (derSig : SigBytes) :
    Except DatabaseError Ledger :=
  if l.any (fun r => r.fst == o) then .error .uniqueViolation
  else .ok (l ++ [(o, derSig)])

/-- Instrumentation: one database access performed by
`process_sign_message`, through `db_signed_outpoint` (lookup) or
`db_insert_signed_outpoint` (insertion). -/
inductive DbEvent
  | lookup (o : OutPoint)
  | insertion (o : OutPoint)
deriving DecidableEq, Repr

/-- `SignProcessingError` (`processing.rs:14-20`).  `Database` keeps its
cause; the `InputSatisfactionError` payload is opaque and dropped. -/
inductive SignProcessingError
  | Database (e : DatabaseError)
  | Garbage
  | InsanePsbtMissingInput
deriving DecidableEq, Repr

/-- `SignResult` (revault_net): either the transaction now carrying our
signatures, or `none` meaning refusal. -/
structure SignResult where
  tx : Option SpendTx
deriving DecidableEq, Repr

/-- `null_signature()` (`processing.rs:34-36`). -/
def null_signature : SignResult := { tx := none }

/-- Outcome of one `process_sign_message` call: the returned value, or a
panic of the process (a failed `assert!`). -/
inductive ProcResult
  | ok (r : SignResult)
  | err (e : SignProcessingError)
  | panicked
deriving DecidableEq, Repr

/-- Everything observable about one call: the outcome, the final state of
the `signed_outpoints` table, and the ordered database accesses. -/
structure ProcOut where
  result : ProcResult
  ledger : Ledger
  events : List DbEvent
deriving DecidableEq, Repr

/-- The number of inputs of the transaction spending the given outpoint
(the duplicated-outpoint filter count, `processing.rs:63-77`). -/
def dupCount (inputs : List SpendTxInput) (o : OutPoint) : Nat :=
  (inputs.filter (fun i => i.previous_output == o)).length

/-- The first loop of `process_sign_message` (`processing.rs:62-93`): for
each input in order, return `Garbage` (`none` here) if its outpoint occurs
on more than one input of the whole transaction, otherwise look the
outpoint up in the ledger and collect the stored signature when there is
one.  Also returns the lookups performed, in order. -/
def gatherSignatures (all : List SpendTxInput) (ledger : Ledger) :
    List SpendTxInput → Option (List SigBytes) × List DbEvent
  | [] => (some [], [])
  | txin :: rest =>
    if 1 < dupCount all txin.previous_output then (none, [])
    else
      match db_signed_outpoint ledger txin.previous_output with
      | some sig =>
        match gatherSignatures all ledger rest with
        | (some sigs, evs) => (some (sig :: sigs), .lookup txin.previous_output :: evs)
        | (none, evs) => (none, .lookup txin.previous_output :: evs)
      | none =>
        match gatherSignatures all ledger rest with
        | (res, evs) => (res, .lookup txin.previous_output :: evs)

/-- The full-replay branch (`processing.rs:97-105`): push the sighash-type
byte onto each stored signature and insert it into the corresponding
input's partial-signature map under our public key.  No verification of the
stored signature against the submitted transaction is performed
("They'll figure out whether they are valid or not"). -/
def attachStored (pub : PubKey) :
    List SpendTxInput → List SigBytes → List SpendTxInput
  | [], _ => []
  | inputs, [] => inputs
  | inp :: it, s :: st =>
    { inp with partial_sigs := sigsInsert inp.partial_sigs pub (s ++ [sigHashAll]) }
      :: attachStored pub it st

/-- Result of the fresh-signing loop: the rebuilt PSBT inputs on success, a
propagated error, or a panic of the `assert!` at `processing.rs:124-128`.
In every case the final table state and the insertions performed are
carried along (each loop iteration commits its own database transaction,
so rows inserted before a failure stay committed). -/
inductive FreshOut
  | done (newInputs : List SpendTxInput) (ledger : Ledger) (events : List DbEvent)
  | fail (e : SignProcessingError) (ledger : Ledger) (events : List DbEvent)
  | panicked (ledger : Ledger) (events : List DbEvent)
deriving DecidableEq, Repr

/-- The fresh-signing loop (`processing.rs:113-136`), one iteration per
input `i`: compute the sighash (propagating `InsanePsbtMissingInput` on
failure), sign it, append the sighash-type byte, insert the raw signature
into the PSBT input's partial-signature map under `pub` — panicking, per
the `assert!`, if that map already bound our key — then INSERT the
(outpoint, DER signature) row.  `insFail i` injects a storage-level failure
of the i-th INSERT of the call (disk error and the like); a failed INSERT
leaves the table unchanged and is reported as a `Database` error. -/
def signFresh (ctx : Secp) (privkey : Nat) (pub : PubKey) (insFail : Nat → Bool) :
    Nat → List SpendTxInput → Ledger → FreshOut
  | _, [], ledger => .done [] ledger []
  | i, inp :: rest, ledger =>
    match inp.sighash with
    | none => .fail .InsanePsbtMissingInput ledger []
    | some h =>
      let signature := ctx.sign h privkey
      let raw_sig := ctx.der signature ++ [sigHashAll]
      if (sigsGet inp.partial_sigs pub).isSome then .panicked ledger []
      else
        let inp' := { inp with partial_sigs := sigsInsert inp.partial_sigs pub raw_sig }
        if insFail i then
          .fail (.Database .ioFailure) ledger [.insertion inp.previous_output]
        else
          match db_insert_signed_outpoint ledger inp.previous_output (ctx.der signature) with
          | .error e =>
            .fail (.Database e) ledger [.insertion inp.previous_output]
          | .ok ledger' =>
            match signFresh ctx privkey pub insFail (i + 1) rest ledger' with
            | .done ni l evs => .done (inp' :: ni) l (.insertion inp.previous_output :: evs)
            | .fail e l evs => .fail e l (.insertion inp.previous_output :: evs)
            | .panicked l evs => .panicked l (.insertion inp.previous_output :: evs)

/-- Shallow embedding of `process_sign_message` (`processing.rs:41-143`):
reject a finalized transaction as `Garbage`; gather the stored signatures
for the input outpoints, rejecting duplicated outpoints as `Garbage`; if
every input had a stored signature, attach them all and return the
transaction; if only some had one, return the null result; otherwise run
the fresh-signing loop and, guarded by the final
`assert!(signatures.is_empty())` (`processing.rs:140`), return the signed
transaction. -/
def process_sign_message (ctx : Secp) (privkey : Nat) (insFail : Nat → Bool)
    (ledger : Ledger) (spend_tx : SpendTx) : ProcOut :=
  let our_pubkey := ctx.pubOf privkey
  let n_inputs := spend_tx.inputs.length
  if spend_tx.finalized then
    { result := .err .Garbage, ledger := ledger, events := [] }
  else
    match gatherSignatures spend_tx.inputs ledger spend_tx.inputs with
    | (none, evs) => { result := .err .Garbage, ledger := ledger, events := evs }
    | (some signatures, evs) =>
      if signatures.length = n_inputs then
        let tx' := { spend_tx with inputs := attachStored our_pubkey spend_tx.inputs signatures }
        { result := .ok { tx := some tx' }, ledger := ledger, events := evs }
      else if signatures.isEmpty = false then
        { result := .ok null_signature, ledger := ledger, events := evs }
      else
        match signFresh ctx privkey our_pubkey insFail 0 spend_tx.inputs ledger with
        | .done newInputs ledger' evs' =>
          let tx' := { spend_tx with inputs := newInputs }
          if signatures.isEmpty then
            { result := .ok { tx := some tx' }, ledger := ledger', events := evs ++ evs' }
          else
            { result := .panicked, ledger := ledger', events := evs ++ evs' }
        | .fail e ledger' evs' =>
          { result := .err e, ledger := ledger', events := evs ++ evs' }
        | .panicked ledger' evs' =>
          { result := .panicked, ledger := ledger', events := evs ++ evs' }

/-- `DB_VERSION` (`database/mod.rs:13`). -/
def DB_VERSION : Nat := 0

/-- Network identifiers (`bitcoin::Network`, stored via `to_string`),
abstracted. -/
abbrev Network := Nat

/-- The `db_params` metadata row: schema version and the network the store
was created for (`database/actions.rs:48-52` writes both at creation). -/
structure DbParams where
  version : Nat
  network : Network
deriving DecidableEq, Repr

/-- `check_db` (`database/actions.rs:58-80`): read the metadata row and fail
when the stored version is not `DB_VERSION` — no migration is attempted —
or when the stored network is not the configured one.  Read-only. -/
def check_db (expectedNetwork : Network) (params : DbParams) :
    Except DatabaseError Unit :=
  if params.version ≠ DB_VERSION then .error .versionMismatch
  else if params.network ≠ expectedNetwork then .error .networkMismatch
  else .ok ()

/-- `setup_db` (`database/actions.rs:83-93`; `database/mod.rs:177-186` has
the same shape): create the store with the expected metadata when none
exists at the path, then integrity-check the (existing or fresh) metadata
row with `check_db`.  Returns the resulting metadata row. -/
def setup_db (expectedNetwork : Network) (existing : Option DbParams) :
    Except DatabaseError DbParams :=
  match existing with
  | none =>
    let created : DbParams := { version := DB_VERSION, network := expectedNetwork }
    match check_db expectedNetwork created with
    | .ok _ => .ok created
    | .error e => .error e
  | some params =>
    match check_db expectedNetwork params with
    | .ok _ => .ok params
    | .error e => .error e

/-- The transaction's input outpoints are pairwise distinct. -/
abbrev DistinctPrevouts (inputs : List SpendTxInput) : Prop :=
  inputs.Pairwise (fun a b => a.previous_output ≠ b.previous_output)

/-- Number of `signed_outpoints` rows for a given outpoint. -/
def recordCount (l : Ledger) (o : OutPoint) : Nat :=
  (l.filter (fun r => r.fst == o)).length

/-- Invariant I1: no two rows of the table share an outpoint. -/
abbrev NoDupRecords (l : Ledger) : Prop :=
  l.Pairwise (fun a b => a.fst ≠ b.fst)

/-- What a caller keeps after one `db_insert_signed_outpoint` call: the new
table on success, the unchanged table on error (the transaction was rolled
back). -/
def applyInsert (l : Ledger) (p : OutPoint × SigBytes) : Ledger :=
  match db_insert_signed_outpoint l p.fst p.snd with
  | .ok l' => l'
  | .error _ => l

/-- A sequence of `db_insert_signed_outpoint` calls, each keeping the prior
table when it fails. -/
def applyInserts (l : Ledger) (ops : List (OutPoint × SigBytes)) : Ledger :=
  ops.foldl applyInsert l

/-- The PSBT input produced for a fresh input by one iteration of the
signing loop: the signature over its sighash, DER-serialized with the
sighash-type byte appended, bound to our public key. -/
def freshInput (ctx : Secp) (privkey : Nat) (pub : PubKey) (inp : SpendTxInput) :
    SpendTxInput :=
  { inp with partial_sigs := sigsInsert inp.partial_sigs pub (ctx.der (ctx.sign (inp.sighash.getD 0) privkey) ++ [sigHashAll]) }

/-- The transaction returned by a successful fresh-signing call. -/
def freshSigned (ctx : Secp) (privkey : Nat) (pub : PubKey) (tx : SpendTx) : SpendTx :=
  { tx with inputs := tx.inputs.map (freshInput ctx privkey pub) }

/-- The `signed_outpoints` rows appended by the signing loop for the given
inputs, in order. -/
def freshRecords (ctx : Secp) (privkey : Nat) (inputs : List SpendTxInput) : Ledger :=
  inputs.map (fun inp => (inp.previous_output, ctx.der (ctx.sign (inp.sighash.getD 0) privkey)))

/-- Modelled from the spec: the refusal condition of the "verifying attach"
full-replay step the specification describes (§4.2 step 4) — attach each
stored signature through an operation that re-derives the sighash and
checks the signature's validity, and return `Refuse` (the null result) if
any attach fails verification.  The verification primitive is opaque and
passed as a parameter.  This definition follows the spec's words, for
comparison with the code's replay branch: the source performs no such
verification. -/
def specReplayRefuses (verify : SigBytes → Option Nat → PubKey → Bool) (pub : PubKey)
    (ledger : Ledger) (inputs : List SpendTxInput) : Bool :=
  inputs.any (fun inp =>
    match db_signed_outpoint ledger inp.previous_output with
    | some sig => !verify sig inp.sighash pub
    | none => true)

/-- The table state carried by a loop outcome. -/
def FreshOut.ledger : FreshOut → Ledger
  | .done _ l _ => l
  | .fail _ l _ => l
  | .panicked l _ => l

/-- A concrete instantiation of the opaque secp primitives, for witnesses
and counterexamples. -/
def ctxC : Secp :=
  { pubOf := fun k => k + 1000
    sign := fun h k => h * 100 + k
    der := fun s => [s] }

/-! ### Lemmas about the ledger primitives -/

theorem db_signed_outpoint_none_iff (l : Ledger) (o : OutPoint) :
    db_signed_outpoint l o = none ↔ ∀ r ∈ l, r.fst ≠ o := by
  unfold db_signed_outpoint
  rw [List.getLast?_eq_none_iff, List.map_eq_nil_iff, List.filter_eq_nil_iff]
  simp

theorem db_signed_outpoint_append (l1 l2 : Ledger) (o : OutPoint)
    (h : ∀ r ∈ l1, r.fst ≠ o) :
    db_signed_outpoint (l1 ++ l2) o = db_signed_outpoint l2 o := by
  unfold db_signed_outpoint
  rw [List.filter_append]
  have h1 : l1.filter (fun r => r.fst == o) = [] := by
    rw [List.filter_eq_nil_iff]; simpa using h
  rw [h1, List.nil_append]

theorem db_signed_outpoint_cons_eq (o : OutPoint) (d : SigBytes) (tail : Ledger)
    (h : ∀ r ∈ tail, r.fst ≠ o) :
    db_signed_outpoint ((o, d) :: tail) o = some d := by
  unfold db_signed_outpoint
  have ht : tail.filter (fun r => r.fst == o) = [] := by
    rw [List.filter_eq_nil_iff]; simpa using h
  simp [List.filter_cons, ht]

theorem db_signed_outpoint_cons_ne (r0 : OutPoint × SigBytes) (tail : Ledger)
    (o : OutPoint) (h : r0.fst ≠ o) :
    db_signed_outpoint (r0 :: tail) o = db_signed_outpoint tail o := by
  unfold db_signed_outpoint
  simp [List.filter_cons, h]

theorem db_insert_signed_outpoint_mem (l : Ledger) (o : OutPoint) (d : SigBytes)
    (h : ∃ r ∈ l, r.fst = o) :
    db_insert_signed_outpoint l o d = .error .uniqueViolation := by
  unfold db_insert_signed_outpoint
  have : l.any (fun r => r.fst == o) = true := by
    rw [List.any_eq_true]; obtain ⟨r, hr, he⟩ := h; exact ⟨r, hr, by simp [he]⟩
  simp [this]

theorem db_insert_signed_outpoint_not_mem (l : Ledger) (o : OutPoint) (d : SigBytes)
    (h : ∀ r ∈ l, r.fst ≠ o) :
    db_insert_signed_outpoint l o d = .ok (l ++ [(o, d)]) := by
  unfold db_insert_signed_outpoint
  have : l.any (fun r => r.fst == o) = false := by
    rw [List.any_eq_false]; simpa using h
  simp [this]

theorem recordCount_eq_zero_iff (l : Ledger) (o : OutPoint) :
    recordCount l o = 0 ↔ ∀ r ∈ l, r.fst ≠ o := by
  unfold recordCount
  rw [List.length_eq_zero, List.filter_eq_nil_iff]
  simp

theorem recordCount_append (l1 l2 : Ledger) (o : OutPoint) :
    recordCount (l1 ++ l2) o = recordCount l1 o + recordCount l2 o := by
  unfold recordCount
  rw [List.filter_append, List.length_append]

theorem db_signed_outpoint_none_of_count_zero (l : Ledger) (o : OutPoint)
    (h : recordCount l o = 0) : db_signed_outpoint l o = none :=
  (db_signed_outpoint_none_iff l o).mpr ((recordCount_eq_zero_iff l o).mp h)

/-! ### Lemmas about lists -/

theorem length_filterMap_eq {α β : Type} (f : α → Option β) (l : List α) :
    (l.filterMap f).length = (l.filter (fun x => (f x).isSome)).length := by
  induction l with
  | nil => rfl
  | cons x rest ih =>
    cases h : f x <;> simp [List.filterMap_cons, List.filter_cons, h, ih]

theorem filterMap_eq_map_of_some {α β : Type} (f : α → Option β) (g : α → β) (l : List α)
    (h : ∀ a ∈ l, f a = some (g a)) : l.filterMap f = l.map g := by
  induction l with
  | nil => rfl
  | cons x rest ih =>
    rw [List.filterMap_cons, h x (by simp), List.map_cons,
      ih (fun a ha => h a (List.mem_cons_of_mem _ ha))]

theorem filterMap_eq_nil_of_none {α β : Type} (f : α → Option β) (l : List α)
    (h : ∀ a ∈ l, f a = none) : l.filterMap f = [] := by
  induction l with
  | nil => rfl
  | cons x rest ih =>
    rw [List.filterMap_cons, h x (by simp)]
    exact ih (fun a ha => h a (List.mem_cons_of_mem _ ha))

/-! ### Lemmas about the gathering loop -/

theorem dupCount_cons (x : SpendTxInput) (rest : List SpendTxInput) (o : OutPoint) :
    dupCount (x :: rest) o =
      (if x.previous_output = o then 1 else 0) + dupCount rest o := by
  unfold dupCount
  rw [List.filter_cons]
  split
  · next h => simp_all [Nat.add_comm]
  · next h => simp_all

theorem dupCount_eq_zero (rest : List SpendTxInput) (o : OutPoint)
    (h : ∀ b ∈ rest, b.previous_output ≠ o) : dupCount rest o = 0 := by
  unfold dupCount
  rw [List.length_eq_zero, List.filter_eq_nil_iff]
  simpa using h

theorem dupCount_le_one_of_distinct (inputs : List SpendTxInput)
    (hd : DistinctPrevouts inputs) (inp : SpendTxInput) (hmem : inp ∈ inputs) :
    ¬ 1 < dupCount inputs inp.previous_output := by
  induction inputs with
  | nil => cases hmem
  | cons x rest ih =>
    obtain ⟨hx, hrest⟩ := List.pairwise_cons.mp hd
    rcases List.mem_cons.mp hmem with h | h
    · subst h
      rw [dupCount_cons, if_pos rfl,
        dupCount_eq_zero rest inp.previous_output (fun b hb => (hx b hb).symm)]
      omega
    · have hne : x.previous_output ≠ inp.previous_output := hx inp h
      rw [dupCount_cons, if_neg hne]
      simpa using ih hrest h

theorem gatherSignatures_eq_of_sane (all : List SpendTxInput) (ledger : Ledger)
    (rest : List SpendTxInput)
    (h : ∀ inp ∈ rest, ¬ 1 < dupCount all inp.previous_output) :
    gatherSignatures all ledger rest =
      (some (rest.filterMap (fun inp => db_signed_outpoint ledger inp.previous_output)),
       rest.map (fun inp => DbEvent.lookup inp.previous_output)) := by
  induction rest with
  | nil => rfl
  | cons x rest ih =>
    have hx := h x (List.mem_cons_self x rest)
    have hr := ih (fun inp hm => h inp (List.mem_cons_of_mem _ hm))
    cases hdb : db_signed_outpoint ledger x.previous_output with
    | some sig =>
      simp [gatherSignatures, if_neg hx, hdb, hr, List.filterMap_cons]
    | none =>
      simp [gatherSignatures, if_neg hx, hdb, hr, List.filterMap_cons]

theorem gatherSignatures_garbage (all : List SpendTxInput) (ledger : Ledger)
    (rest : List SpendTxInput)
    (h : ∃ inp ∈ rest, 1 < dupCount all inp.previous_output) :
    ∃ evs, gatherSignatures all ledger rest = (none, evs) ∧
      ∀ e ∈ evs, ∃ o, e = DbEvent.lookup o := by
  induction rest with
  | nil => simp at h
  | cons x rest ih =>
    by_cases hx : 1 < dupCount all x.previous_output
    · exact ⟨[], by simp [gatherSignatures, if_pos hx], by simp⟩
    · obtain ⟨inp, hmem, hdup⟩ := h
      have hinp : inp ∈ rest := by
        rcases List.mem_cons.mp hmem with he | hr
        · exact absurd (he ▸ hdup) hx
        · exact hr
      obtain ⟨evs, hevs, hall⟩ := ih ⟨inp, hinp, hdup⟩
      cases hdb : db_signed_outpoint ledger x.previous_output with
      | some sig =>
        refine ⟨DbEvent.lookup x.previous_output :: evs, ?_, ?_⟩
        · simp [gatherSignatures, if_neg hx, hdb, hevs]
        · intro e he
          rcases List.mem_cons.mp he with he | he
          · exact ⟨x.previous_output, he⟩
          · exact hall e he
      | none =>
        refine ⟨DbEvent.lookup x.previous_output :: evs, ?_, ?_⟩
        · simp [gatherSignatures, if_neg hx, hdb, hevs]
        · intro e he
          rcases List.mem_cons.mp he with he | he
          · exact ⟨x.previous_output, he⟩
          · exact hall e he

/-! ### Lemmas about the fresh-signing loop -/

theorem signFresh_done (ctx : Secp) (privkey : Nat) (pub : PubKey)
    (rest : List SpendTxInput) :
    ∀ (i : Nat) (ledger : Ledger),
    DistinctPrevouts rest →
    (∀ inp ∈ rest, inp.sighash.isSome) →
    (∀ inp ∈ rest, sigsGet inp.partial_sigs pub = none) →
    (∀ inp ∈ rest, ∀ r ∈ ledger, r.fst ≠ inp.previous_output) →
    signFresh ctx privkey pub (fun _ => false) i rest ledger =
      .done (rest.map (freshInput ctx privkey pub))
        (ledger ++ freshRecords ctx privkey rest)
        (rest.map (fun inp => DbEvent.insertion inp.previous_output)) := by
  induction rest with
  | nil => intro i ledger _ _ _ _; simp [signFresh, freshRecords]
  | cons x rest ih =>
    intro i ledger hd hsig hps hnr
    obtain ⟨hx, hrest⟩ := List.pairwise_cons.mp hd
    obtain ⟨h, hh⟩ := Option.isSome_iff_exists.mp (hsig x (List.mem_cons_self x rest))
    have hpsx : sigsGet x.partial_sigs pub = none := hps x (List.mem_cons_self x rest)
    have hins : db_insert_signed_outpoint ledger x.previous_output
        (ctx.der (ctx.sign h privkey)) =
        .ok (ledger ++ [(x.previous_output, ctx.der (ctx.sign h privkey))]) :=
      db_insert_signed_outpoint_not_mem _ _ _
        (fun r hr => hnr x (List.mem_cons_self x rest) r hr)
    have hrec := ih (i + 1) (ledger ++ [(x.previous_output, ctx.der (ctx.sign h privkey))])
      hrest
      (fun inp hm => hsig inp (List.mem_cons_of_mem _ hm))
      (fun inp hm => hps inp (List.mem_cons_of_mem _ hm))
      (fun inp hm r hr => by
        rcases List.mem_append.mp hr with hr | hr
        · exact hnr inp (List.mem_cons_of_mem _ hm) r hr
        · have : r = (x.previous_output, ctx.der (ctx.sign h privkey)) := by simpa using hr
          rw [this]; exact hx inp hm)
    simp [signFresh, hh, hpsx, hins, hrec, freshRecords, freshInput, List.append_assoc]

theorem signFresh_fail_sighash (ctx : Secp) (privkey : Nat) (pub : PubKey)
    (pre : List SpendTxInput) (bad : SpendTxInput) (post : List SpendTxInput) :
    ∀ (i : Nat) (ledger : Ledger),
    DistinctPrevouts pre →
    (∀ inp ∈ pre, inp.sighash.isSome) →
    (∀ inp ∈ pre, sigsGet inp.partial_sigs pub = none) →
    (∀ inp ∈ pre, ∀ r ∈ ledger, r.fst ≠ inp.previous_output) →
    bad.sighash = none →
    signFresh ctx privkey pub (fun _ => false) i (pre ++ bad :: post) ledger =
      .fail .InsanePsbtMissingInput (ledger ++ freshRecords ctx privkey pre)
        (pre.map (fun inp => DbEvent.insertion inp.previous_output)) := by
  induction pre with
  | nil => intro i ledger _ _ _ _ hbad; simp [signFresh, hbad, freshRecords]
  | cons x pre ih =>
    intro i ledger hd hsig hps hnr hbad
    obtain ⟨hx, hrest⟩ := List.pairwise_cons.mp hd
    obtain ⟨h, hh⟩ := Option.isSome_iff_exists.mp (hsig x (List.mem_cons_self x pre))
    have hpsx : sigsGet x.partial_sigs pub = none := hps x (List.mem_cons_self x pre)
    have hins : db_insert_signed_outpoint ledger x.previous_output
        (ctx.der (ctx.sign h privkey)) =
        .ok (ledger ++ [(x.previous_output, ctx.der (ctx.sign h privkey))]) :=
      db_insert_signed_outpoint_not_mem _ _ _
        (fun r hr => hnr x (List.mem_cons_self x pre) r hr)
    have hrec := ih (i + 1) (ledger ++ [(x.previous_output, ctx.der (ctx.sign h privkey))])
      hrest
      (fun inp hm => hsig inp (List.mem_cons_of_mem _ hm))
      (fun inp hm => hps inp (List.mem_cons_of_mem _ hm))
      (fun inp hm r hr => by
        rcases List.mem_append.mp hr with hr | hr
        · exact hnr inp (List.mem_cons_of_mem _ hm) r hr
        · have : r = (x.previous_output, ctx.der (ctx.sign h privkey)) := by simpa using hr
          rw [this]; exact hx inp hm)
      hbad
    simp [signFresh, hh, hpsx, hins, hrec, freshRecords, List.append_assoc]

theorem signFresh_fail_io (ctx : Secp) (privkey : Nat) (pub : PubKey)
    (insFail : Nat → Bool) (pre : List SpendTxInput) (bad : SpendTxInput)
    (post : List SpendTxInput) :
    ∀ (i : Nat) (ledger : Ledger),
    DistinctPrevouts pre →
    (∀ inp ∈ pre, inp.sighash.isSome) →
    (∀ inp ∈ pre, sigsGet inp.partial_sigs pub = none) →
    (∀ inp ∈ pre, ∀ r ∈ ledger, r.fst ≠ inp.previous_output) →
    (∀ j, j < pre.length → insFail (i + j) = false) →
    insFail (i + pre.length) = true →
    bad.sighash.isSome →
    sigsGet bad.partial_sigs pub = none →
    signFresh ctx privkey pub insFail i (pre ++ bad :: post) ledger =
      .fail (.Database .ioFailure) (ledger ++ freshRecords ctx privkey pre)
        ((pre ++ [bad]).map (fun inp => DbEvent.insertion inp.previous_output)) := by
  induction pre with
  | nil =>
    intro i ledger _ _ _ _ _ hfail hbs hbps
    obtain ⟨h, hh⟩ := Option.isSome_iff_exists.mp hbs
    have hf : insFail i = true := by simpa using hfail
    simp [signFresh, hh, hbps, hf, freshRecords]
  | cons x pre ih =>
    intro i ledger hd hsig hps hnr hok hfail hbs hbps
    obtain ⟨hx, hrest⟩ := List.pairwise_cons.mp hd
    obtain ⟨h, hh⟩ := Option.isSome_iff_exists.mp (hsig x (List.mem_cons_self x pre))
    have hpsx : sigsGet x.partial_sigs pub = none := hps x (List.mem_cons_self x pre)
    have hfx : insFail i = false := by
      have := hok 0 (by simp)
      simpa using this
    have hins : db_insert_signed_outpoint ledger x.previous_output
        (ctx.der (ctx.sign h privkey)) =
        .ok (ledger ++ [(x.previous_output, ctx.der (ctx.sign h privkey))]) :=
      db_insert_signed_outpoint_not_mem _ _ _
        (fun r hr => hnr x (List.mem_cons_self x pre) r hr)
    have hok' : ∀ j, j < pre.length → insFail (i + 1 + j) = false := by
      intro j hj
      have he : i + 1 + j = i + (j + 1) := by omega
      rw [he]
      exact hok (j + 1) (by simpa using Nat.succ_lt_succ hj)
    have hfail' : insFail (i + 1 + pre.length) = true := by
      have he : i + 1 + pre.length = i + (x :: pre).length := by simp; omega
      rw [he]; exact hfail
    have hrec := ih (i + 1) (ledger ++ [(x.previous_output, ctx.der (ctx.sign h privkey))])
      hrest
      (fun inp hm => hsig inp (List.mem_cons_of_mem _ hm))
      (fun inp hm => hps inp (List.mem_cons_of_mem _ hm))
      (fun inp hm r hr => by
        rcases List.mem_append.mp hr with hr | hr
        · exact hnr inp (List.mem_cons_of_mem _ hm) r hr
        · have : r = (x.previous_output, ctx.der (ctx.sign h privkey)) := by simpa using hr
          rw [this]; exact hx inp hm)
      hok' hfail' hbs hbps
    simp [signFresh, hh, hpsx, hfx, hins, hrec, freshRecords, List.append_assoc]

theorem db_insert_signed_outpoint_ok (l : Ledger) (o : OutPoint) (d : SigBytes)
    (l' : Ledger) (h : db_insert_signed_outpoint l o d = .ok l') :
    l' = l ++ [(o, d)] ∧ ∀ r ∈ l, r.fst ≠ o := by
  unfold db_insert_signed_outpoint at h
  split at h
  · cases h
  · next hc =>
    have hany : l.any (fun r => r.fst == o) = false := eq_false_of_ne_true hc
    refine ⟨?_, ?_⟩
    · injection h with h'
      exact h'.symm
    · intro r hr
      have := List.any_eq_false.mp hany r hr
      simpa using this

theorem signFresh_no_panicked (ctx : Secp) (privkey : Nat) (pub : PubKey)
    (insFail : Nat → Bool) (rest : List SpendTxInput) :
    ∀ (i : Nat) (ledger : Ledger),
    (∀ inp ∈ rest, sigsGet inp.partial_sigs pub = none) →
    ∀ l evs, signFresh ctx privkey pub insFail i rest ledger ≠ .panicked l evs := by
  induction rest with
  | nil => intro i ledger _ l evs; simp [signFresh]
  | cons x rest ih =>
    intro i ledger hps l evs
    have hpsx : sigsGet x.partial_sigs pub = none := hps x (List.mem_cons_self x rest)
    cases hh : x.sighash with
    | none => simp [signFresh, hh]
    | some h =>
      cases hf : insFail i with
      | true => simp [signFresh, hh, hpsx, hf]
      | false =>
        cases hins : db_insert_signed_outpoint ledger x.previous_output
            (ctx.der (ctx.sign h privkey)) with
        | error e => simp [signFresh, hh, hpsx, hf, hins]
        | ok ledger' =>
          cases hr : signFresh ctx privkey pub insFail (i + 1) rest ledger' with
          | done ni l2 evs2 => simp [signFresh, hh, hpsx, hf, hins, hr]
          | fail e l2 evs2 => simp [signFresh, hh, hpsx, hf, hins, hr]
          | panicked l2 evs2 =>
            exact absurd hr
              (ih (i + 1) ledger' (fun inp hm => hps inp (List.mem_cons_of_mem _ hm)) l2 evs2)

theorem signFresh_done_covers (ctx : Secp) (privkey : Nat) (pub : PubKey)
    (insFail : Nat → Bool) (rest : List SpendTxInput) :
    ∀ (i : Nat) (ledger : Ledger) (ni : List SpendTxInput) (l : Ledger) (evs : List DbEvent),
    signFresh ctx privkey pub insFail i rest ledger = .done ni l evs →
    (∃ ext, l = ledger ++ ext) ∧ ∀ inp ∈ rest, ∃ r ∈ l, r.fst = inp.previous_output := by
  induction rest with
  | nil =>
    intro i ledger ni l evs h
    simp only [signFresh, FreshOut.done.injEq] at h
    exact ⟨⟨[], by simp [h.2.1]⟩, by simp⟩
  | cons x rest ih =>
    intro i ledger ni l evs h
    cases hh : x.sighash with
    | none => simp [signFresh, hh] at h
    | some hs =>
      cases hps : (sigsGet x.partial_sigs pub).isSome with
      | true => simp [signFresh, hh, hps] at h
      | false =>
        cases hf : insFail i with
        | true => simp [signFresh, hh, hps, hf] at h
        | false =>
          cases hins : db_insert_signed_outpoint ledger x.previous_output
              (ctx.der (ctx.sign hs privkey)) with
          | error e => simp [signFresh, hh, hps, hf, hins] at h
          | ok ledger' =>
            cases hr : signFresh ctx privkey pub insFail (i + 1) rest ledger' with
            | fail e l2 evs2 => simp [signFresh, hh, hps, hf, hins, hr] at h
            | panicked l2 evs2 => simp [signFresh, hh, hps, hf, hins, hr] at h
            | done ni2 l2 evs2 =>
              simp [signFresh, hh, hps, hf, hins, hr] at h
              obtain ⟨hl', hmem⟩ := db_insert_signed_outpoint_ok _ _ _ _ hins
              obtain ⟨⟨ext, hext⟩, hcov⟩ := ih (i + 1) ledger' ni2 l2 evs2 hr
              have hl2 : l = l2 := by
                rcases h with ⟨h1, h2, h3⟩
                exact h2.symm
              subst hl2
              constructor
              · exact ⟨[(x.previous_output, ctx.der (ctx.sign hs privkey))] ++ ext, by
                  rw [hext, hl', List.append_assoc]⟩
              · intro inp hm
                rcases List.mem_cons.mp hm with he | hm'
                · subst he
                  refine ⟨(inp.previous_output, ctx.der (ctx.sign hs privkey)), ?_, rfl⟩
                  rw [hext, hl']
                  exact List.mem_append_left _ (List.mem_append_right _ (by simp))
                · exact hcov inp hm'

theorem signFresh_preserves_nodup (ctx : Secp) (privkey : Nat) (pub : PubKey)
    (insFail : Nat → Bool) (rest : List SpendTxInput) :
    ∀ (i : Nat) (ledger : Ledger), NoDupRecords ledger →
    NoDupRecords (signFresh ctx privkey pub insFail i rest ledger).ledger := by
  induction rest with
  | nil => intro i ledger hnd; simpa [signFresh, FreshOut.ledger] using hnd
  | cons x rest ih =>
    intro i ledger hnd
    cases hh : x.sighash with
    | none => simpa [signFresh, hh, FreshOut.ledger] using hnd
    | some hs =>
      cases hps : (sigsGet x.partial_sigs pub).isSome with
      | true => simpa [signFresh, hh, hps, FreshOut.ledger] using hnd
      | false =>
        cases hf : insFail i with
        | true => simpa [signFresh, hh, hps, hf, FreshOut.ledger] using hnd
        | false =>
          cases hins : db_insert_signed_outpoint ledger x.previous_output
              (ctx.der (ctx.sign hs privkey)) with
          | error e => simpa [signFresh, hh, hps, hf, hins, FreshOut.ledger] using hnd
          | ok ledger' =>
            obtain ⟨hl', hmem⟩ := db_insert_signed_outpoint_ok _ _ _ _ hins
            have hnd' : NoDupRecords ledger' := by
              rw [hl']
              unfold NoDupRecords at hnd ⊢
              rw [List.pairwise_append]
              refine ⟨hnd, by simp, ?_⟩
              intro a ha b hb
              have : b = (x.previous_output, ctx.der (ctx.sign hs privkey)) := by simpa using hb
              rw [this]
              exact hmem a ha
            have hrec := ih (i + 1) ledger' hnd'
            cases hr : signFresh ctx privkey pub insFail (i + 1) rest ledger' with
            | done ni2 l2 evs2 =>
              rw [hr] at hrec
              simpa [signFresh, hh, hps, hf, hins, hr, FreshOut.ledger] using hrec
            | fail e l2 evs2 =>
              rw [hr] at hrec
              simpa [signFresh, hh, hps, hf, hins, hr, FreshOut.ledger] using hrec
            | panicked l2 evs2 =>
              rw [hr] at hrec
              simpa [signFresh, hh, hps, hf, hins, hr, FreshOut.ledger] using hrec

/-! ### Lemmas about the freshly appended records -/

theorem freshRecords_fst (ctx : Secp) (privkey : Nat) (inputs : List SpendTxInput)
    (r : OutPoint × SigBytes) (hr : r ∈ freshRecords ctx privkey inputs) :
    ∃ inp ∈ inputs, r.fst = inp.previous_output := by
  unfold freshRecords at hr
  obtain ⟨inp, hmem, he⟩ := List.mem_map.mp hr
  exact ⟨inp, hmem, by rw [← he]⟩

theorem db_signed_outpoint_freshRecords (ctx : Secp) (privkey : Nat)
    (inputs : List SpendTxInput) (hd : DistinctPrevouts inputs) (inp : SpendTxInput)
    (hmem : inp ∈ inputs) :
    db_signed_outpoint (freshRecords ctx privkey inputs) inp.previous_output =
      some (ctx.der (ctx.sign (inp.sighash.getD 0) privkey)) := by
  induction inputs with
  | nil => cases hmem
  | cons x rest ih =>
    obtain ⟨hx, hrest⟩ := List.pairwise_cons.mp hd
    rcases List.mem_cons.mp hmem with he | hm
    · subst he
      have hnone : ∀ r ∈ freshRecords ctx privkey rest, r.fst ≠ inp.previous_output := by
        intro r hr
        obtain ⟨b, hb, hbe⟩ := freshRecords_fst ctx privkey rest r hr
        rw [hbe]
        exact fun hc => hx b hb hc.symm
      simpa [freshRecords] using
        db_signed_outpoint_cons_eq inp.previous_output
          (ctx.der (ctx.sign (inp.sighash.getD 0) privkey)) _ hnone
    · have hne : x.previous_output ≠ inp.previous_output := hx inp hm
      have step := db_signed_outpoint_cons_ne
        (x.previous_output, ctx.der (ctx.sign (x.sighash.getD 0) privkey))
        (freshRecords ctx privkey rest) inp.previous_output hne
      calc db_signed_outpoint (freshRecords ctx privkey (x :: rest)) inp.previous_output
        = db_signed_outpoint (freshRecords ctx privkey rest) inp.previous_output := by
            simpa [freshRecords] using step
        _ = some (ctx.der (ctx.sign (inp.sighash.getD 0) privkey)) := ih hrest hm

theorem recordCount_freshRecords_eq_one (ctx : Secp) (privkey : Nat)
    (inputs : List SpendTxInput) (hd : DistinctPrevouts inputs) (inp : SpendTxInput)
    (hmem : inp ∈ inputs) :
    recordCount (freshRecords ctx privkey inputs) inp.previous_output = 1 := by
  induction inputs with
  | nil => cases hmem
  | cons x rest ih =>
    obtain ⟨hx, hrest⟩ := List.pairwise_cons.mp hd
    rcases List.mem_cons.mp hmem with he | hm
    · subst he
      have hz : recordCount (freshRecords ctx privkey rest) inp.previous_output = 0 := by
        rw [recordCount_eq_zero_iff]
        intro r hr
        obtain ⟨b, hb, hbe⟩ := freshRecords_fst ctx privkey rest r hr
        rw [hbe]
        exact fun hc => hx b hb hc.symm
      simp [freshRecords, recordCount, List.filter_cons] at hz ⊢
      simpa [recordCount, freshRecords] using hz
    · have hne : x.previous_output ≠ inp.previous_output := hx inp hm
      have := ih hrest hm
      simpa [freshRecords, recordCount, List.filter_cons, hne] using this

/-! ### Further generic lemmas -/

theorem db_signed_outpoint_isSome_iff (l : Ledger) (o : OutPoint) :
    (db_signed_outpoint l o).isSome ↔ ∃ r ∈ l, r.fst = o := by
  unfold db_signed_outpoint
  rw [List.getLast?_isSome]
  constructor
  · intro h
    rcases hf : l.filter (fun r => r.fst == o) with _ | ⟨r, rest⟩
    · exact absurd (by rw [hf]; rfl) h
    · have hr : r ∈ l.filter (fun r => r.fst == o) := by rw [hf]; simp
      have := List.mem_filter.mp hr
      exact ⟨r, this.1, by simpa using this.2⟩
  · intro ⟨r, hr, he⟩ hc
    rw [List.map_eq_nil_iff, List.filter_eq_nil_iff] at hc
    exact hc r hr (by simpa using he)

theorem gatherSignatures_some (all : List SpendTxInput) (ledger : Ledger)
    (rest : List SpendTxInput) :
    ∀ (sigs : List SigBytes) (evs : List DbEvent),
    gatherSignatures all ledger rest = (some sigs, evs) →
    sigs = rest.filterMap (fun inp => db_signed_outpoint ledger inp.previous_output) ∧
    evs = rest.map (fun inp => DbEvent.lookup inp.previous_output) := by
  induction rest with
  | nil =>
    intro sigs evs h
    simp only [gatherSignatures, Prod.mk.injEq, Option.some.injEq] at h
    exact ⟨h.1.symm, h.2.symm⟩
  | cons x rest ih =>
    intro sigs evs h
    by_cases hdup : 1 < dupCount all x.previous_output
    · simp [gatherSignatures, if_pos hdup] at h
    · cases hdb : db_signed_outpoint ledger x.previous_output with
      | some sig =>
        rcases hg : gatherSignatures all ledger rest with ⟨res, evs0⟩
        cases res with
        | none => simp [gatherSignatures, if_neg hdup, hdb, hg] at h
        | some sigs0 =>
          obtain ⟨hs0, he0⟩ := ih sigs0 evs0 hg
          simp only [gatherSignatures, if_neg hdup, hdb, hg, Prod.mk.injEq,
            Option.some.injEq] at h
          rw [← h.1, ← h.2, hs0, he0]
          simp [List.filterMap_cons, hdb]
      | none =>
        rcases hg : gatherSignatures all ledger rest with ⟨res, evs0⟩
        cases res with
        | none => simp [gatherSignatures, if_neg hdup, hdb, hg] at h
        | some sigs0 =>
          obtain ⟨hs0, he0⟩ := ih sigs0 evs0 hg
          simp only [gatherSignatures, if_neg hdup, hdb, hg, Prod.mk.injEq,
            Option.some.injEq] at h
          rw [← h.1, ← h.2, hs0, he0]
          simp [List.filterMap_cons, hdb]

theorem attachStored_map (pub : PubKey) (inputs : List SpendTxInput)
    (g : SpendTxInput → SigBytes) :
    attachStored pub inputs (inputs.map g) =
      inputs.map (fun inp =>
        { inp with partial_sigs := sigsInsert inp.partial_sigs pub (g inp ++ [sigHashAll]) }) := by
  induction inputs with
  | nil => rfl
  | cons x rest ih => simp [attachStored, ih]

theorem applyInsert_preserves_nodup (l : Ledger) (p : OutPoint × SigBytes)
    (h : NoDupRecords l) : NoDupRecords (applyInsert l p) := by
  unfold applyInsert
  cases hins : db_insert_signed_outpoint l p.fst p.snd with
  | error e => exact h
  | ok l' =>
    obtain ⟨hl', hmem⟩ := db_insert_signed_outpoint_ok _ _ _ _ hins
    rw [hl']
    unfold NoDupRecords at h ⊢
    rw [List.pairwise_append]
    refine ⟨h, by simp, ?_⟩
    intro a ha b hb
    have : b = (p.fst, p.snd) := by simpa using hb
    rw [this]
    exact hmem a ha

/-! ### Branch characterizations of process_sign_message -/

theorem process_full_replay (ctx : Secp) (privkey : Nat) (insFail : Nat → Bool)
    (ledger : Ledger) (tx : SpendTx)
    (hfin : tx.finalized = false) (hd : DistinctPrevouts tx.inputs)
    (hall : ∀ inp ∈ tx.inputs, (db_signed_outpoint ledger inp.previous_output).isSome) :
    process_sign_message ctx privkey insFail ledger tx =
      { result := .ok { tx := some ⟨attachStored (ctx.pubOf privkey) tx.inputs
            (tx.inputs.filterMap (fun inp => db_signed_outpoint ledger inp.previous_output)),
          tx.finalized⟩ },
        ledger := ledger,
        events := tx.inputs.map (fun inp => DbEvent.lookup inp.previous_output) } := by
  have hdup : ∀ inp ∈ tx.inputs, ¬ 1 < dupCount tx.inputs inp.previous_output :=
    fun inp hm => dupCount_le_one_of_distinct tx.inputs hd inp hm
  have hg := gatherSignatures_eq_of_sane tx.inputs ledger tx.inputs hdup
  have hlen : (tx.inputs.filterMap
      (fun inp => db_signed_outpoint ledger inp.previous_output)).length =
      tx.inputs.length := by
    rw [length_filterMap_eq]
    exact List.filter_length_eq_length.mpr (fun a ha => hall a ha)
  simp only [process_sign_message, hfin, hg]
  simp [hlen]

theorem process_fresh_success (ctx : Secp) (privkey : Nat) (ledger : Ledger) (tx : SpendTx)
    (hfin : tx.finalized = false) (hd : DistinctPrevouts tx.inputs)
    (hne : tx.inputs ≠ [])
    (hnone : ∀ inp ∈ tx.inputs, db_signed_outpoint ledger inp.previous_output = none)
    (hsig : ∀ inp ∈ tx.inputs, inp.sighash.isSome)
    (hps : ∀ inp ∈ tx.inputs, sigsGet inp.partial_sigs (ctx.pubOf privkey) = none) :
    process_sign_message ctx privkey (fun _ => false) ledger tx =
      { result := .ok { tx := some (freshSigned ctx privkey (ctx.pubOf privkey) tx) },
        ledger := ledger ++ freshRecords ctx privkey tx.inputs,
        events := tx.inputs.map (fun inp => DbEvent.lookup inp.previous_output) ++
          tx.inputs.map (fun inp => DbEvent.insertion inp.previous_output) } := by
  have hdup : ∀ inp ∈ tx.inputs, ¬ 1 < dupCount tx.inputs inp.previous_output :=
    fun inp hm => dupCount_le_one_of_distinct tx.inputs hd inp hm
  have hg := gatherSignatures_eq_of_sane tx.inputs ledger tx.inputs hdup
  have hnil : tx.inputs.filterMap
      (fun inp => db_signed_outpoint ledger inp.previous_output) = [] :=
    filterMap_eq_nil_of_none _ _ hnone
  rw [hnil] at hg
  have hlen : ¬ 0 = tx.inputs.length := by
    intro hc
    exact hne (List.length_eq_zero.mp hc.symm)
  have hsf := signFresh_done ctx privkey (ctx.pubOf privkey) tx.inputs 0 ledger hd hsig hps
    (fun inp hm r hr =>
      ((db_signed_outpoint_none_iff ledger inp.previous_output).mp (hnone inp hm)) r hr)
  simp only [process_sign_message, hfin, hg]
  simp [hlen, hsf, freshSigned, hfin]

theorem process_zero_inputs (ctx : Secp) (privkey : Nat) (insFail : Nat → Bool)
    (ledger : Ledger) (tx : SpendTx) (hfin : tx.finalized = false)
    (hinputs : tx.inputs = []) :
    process_sign_message ctx privkey insFail ledger tx =
      { result := .ok { tx := some tx }, ledger := ledger, events := [] } := by
  obtain ⟨ins, fin⟩ := tx
  simp only at hfin hinputs
  subst hfin
  subst hinputs
  simp [process_sign_message, gatherSignatures, attachStored]

/-! ### Claim theorems -/

/-- Claim C9: when a ledger store already exists at the configured path,
initialization (setup_db / check_db) reads the metadata row and fails with
an error if the stored schema version differs from the expected version, or
if the stored network differs from the configured network; no migration is
attempted, and on a matching store it succeeds without modifying the
metadata (the row is handed back unchanged). -/
theorem C9_startup_integrity (net : Network) (params : DbParams) :
    (params.version ≠ DB_VERSION ∨ params.network ≠ net →
      ∃ e, setup_db net (some params) = .error e) ∧
    (params.version = DB_VERSION → params.network = net →
      setup_db net (some params) = .ok params) := by
  constructor
  · intro h
    by_cases hv : params.version = DB_VERSION
    · have hn : params.network ≠ net := by tauto
      exact ⟨.networkMismatch, by simp [setup_db, check_db, hv, hn]⟩
    · exact ⟨.versionMismatch, by simp [setup_db, check_db, hv]⟩
  · intro hv hn
    simp [setup_db, check_db, hv, hn]

/-- Witness for C9: a store with a wrong version is rejected, a matching
store is accepted unchanged. -/
theorem C9_startup_integrity_witness :
    (∃ e, setup_db 0 (some { version := 1, network := 0 }) = .error e) ∧
    setup_db 0 (some { version := 0, network := 0 }) =
      .ok { version := 0, network := 0 } :=
  ⟨(C9_startup_integrity 0 { version := 1, network := 0 }).1 (Or.inl (by decide)),
   (C9_startup_integrity 0 { version := 0, network := 0 }).2 rfl rfl⟩

/-- Claim C10: for a sign request whose spend transaction is not finalized
and has zero inputs, process_sign_message returns Ok with Sign(tx) — the
transaction handed back unchanged, with no signatures attached — rather
than Refuse or a Garbage rejection (the "all N inputs previously signed"
condition is vacuously satisfied for N = 0), and no ledger record is read
or written. -/
theorem C10_zero_inputs (ctx : Secp) (privkey : Nat) (insFail : Nat → Bool)
    (ledger : Ledger) (tx : SpendTx) (hfin : tx.finalized = false)
    (hinputs : tx.inputs = []) :
    process_sign_message ctx privkey insFail ledger tx =
      { result := .ok { tx := some tx }, ledger := ledger, events := [] } :=
  process_zero_inputs ctx privkey insFail ledger tx hfin hinputs

/-- Witness for C10 at a concrete zero-input transaction. -/
theorem C10_zero_inputs_witness :
    process_sign_message ctxC 7 (fun _ => false) [(⟨1, 0⟩, [42])]
        { inputs := [], finalized := false } =
      { result := .ok { tx := some { inputs := [], finalized := false } },
        ledger := [(⟨1, 0⟩, [42])], events := [] } :=
  C10_zero_inputs ctxC 7 (fun _ => false) [(⟨1, 0⟩, [42])]
    { inputs := [], finalized := false } rfl rfl

/-- Claim C3: at most one signed-outpoint record per outpoint ever exists:
inserting a record for an outpoint that already has one returns an error
and leaves the table unchanged, and the no-duplicate invariant is preserved
by every sequence of insertions and by every process_sign_message call. -/
theorem C3_anti_replay_ledger_invariant :
    (∀ (l : Ledger) (o : OutPoint) (d : SigBytes), (∃ r ∈ l, r.fst = o) →
      db_insert_signed_outpoint l o d = .error .uniqueViolation ∧
      applyInsert l (o, d) = l) ∧
    (∀ (l : Ledger) (ops : List (OutPoint × SigBytes)), NoDupRecords l →
      NoDupRecords (applyInserts l ops)) ∧
    (∀ (ctx : Secp) (privkey : Nat) (insFail : Nat → Bool) (l : Ledger) (tx : SpendTx),
      NoDupRecords l →
      NoDupRecords (process_sign_message ctx privkey insFail l tx).ledger) := by
  refine ⟨?_, ?_, ?_⟩
  · intro l o d h
    have he := db_insert_signed_outpoint_mem l o d h
    exact ⟨he, by simp [applyInsert, he]⟩
  · intro l ops
    induction ops generalizing l with
    | nil => intro h; exact h
    | cons p rest ih =>
      intro h
      exact ih (applyInsert l p) (applyInsert_preserves_nodup l p h)
  · intro ctx privkey insFail l tx hnd
    by_cases hfin : tx.finalized = true
    · simpa [process_sign_message, hfin] using hnd
    · rw [Bool.not_eq_true] at hfin
      rcases hg : gatherSignatures tx.inputs l tx.inputs with ⟨res, evs⟩
      cases res with
      | none => simpa [process_sign_message, hfin, hg] using hnd
      | some sigs =>
        by_cases hlen : sigs.length = tx.inputs.length
        · simpa [process_sign_message, hfin, hg, hlen] using hnd
        · by_cases hemp : sigs.isEmpty = false
          · simpa [process_sign_message, hfin, hg, hlen, hemp] using hnd
          · have hpres := signFresh_preserves_nodup ctx privkey (ctx.pubOf privkey)
              insFail tx.inputs 0 l hnd
            cases hsf : signFresh ctx privkey (ctx.pubOf privkey) insFail 0 tx.inputs l with
            | done ni l2 evs2 =>
              rw [hsf] at hpres
              simpa [process_sign_message, hfin, hg, hlen, hemp, hsf,
                FreshOut.ledger] using hpres
            | fail e l2 evs2 =>
              rw [hsf] at hpres
              simpa [process_sign_message, hfin, hg, hlen, hemp, hsf,
                FreshOut.ledger] using hpres
            | panicked l2 evs2 =>
              rw [hsf] at hpres
              simpa [process_sign_message, hfin, hg, hlen, hemp, hsf,
                FreshOut.ledger] using hpres

/-- Witness for C3: a duplicate insertion fails and changes nothing, a
sequence of insertions with a repeated outpoint keeps the invariant, and a
fresh-signing call keeps the invariant. -/
theorem C3_anti_replay_ledger_invariant_witness :
    (db_insert_signed_outpoint [(⟨1, 0⟩, [2])] ⟨1, 0⟩ [3] = .error .uniqueViolation ∧
      applyInsert [(⟨1, 0⟩, [2])] (⟨1, 0⟩, [3]) = [(⟨1, 0⟩, [2])]) ∧
    NoDupRecords (applyInserts [] [(⟨1, 0⟩, [2]), (⟨1, 0⟩, [3]), (⟨2, 0⟩, [4])]) ∧
    NoDupRecords (process_sign_message ctxC 7 (fun _ => false) []
      { inputs := [⟨⟨1, 0⟩, [], some 5⟩], finalized := false }).ledger :=
  ⟨C3_anti_replay_ledger_invariant.1 [(⟨1, 0⟩, [2])] ⟨1, 0⟩ [3]
      ⟨(⟨1, 0⟩, [2]), by simp, rfl⟩,
   C3_anti_replay_ledger_invariant.2.1 [] [(⟨1, 0⟩, [2]), (⟨1, 0⟩, [3]), (⟨2, 0⟩, [4])]
      List.Pairwise.nil,
   C3_anti_replay_ledger_invariant.2.2 ctxC 7 (fun _ => false) []
      { inputs := [⟨⟨1, 0⟩, [], some 5⟩], finalized := false } List.Pairwise.nil⟩

/-- Claim C5, counterexample: a non-finalized transaction whose second and
third inputs share an outpoint is rejected as Garbage, but only after the
ledger was consulted for the first input — the rejection is not free of
ledger accesses, contradicting "without performing any ledger access". -/
theorem C5_counterexample :
    (process_sign_message ctxC 7 (fun _ => false) []
        { inputs := [⟨⟨1, 0⟩, [], some 5⟩, ⟨⟨2, 1⟩, [], some 6⟩, ⟨⟨2, 1⟩, [], some 6⟩],
          finalized := false }).result = .err .Garbage ∧
    (process_sign_message ctxC 7 (fun _ => false) []
        { inputs := [⟨⟨1, 0⟩, [], some 5⟩, ⟨⟨2, 1⟩, [], some 6⟩, ⟨⟨2, 1⟩, [], some 6⟩],
          finalized := false }).events = [DbEvent.lookup ⟨1, 0⟩] ∧
    (process_sign_message ctxC 7 (fun _ => false) []
        { inputs := [⟨⟨1, 0⟩, [], some 5⟩, ⟨⟨2, 1⟩, [], some 6⟩, ⟨⟨2, 1⟩, [], some 6⟩],
          finalized := false }).events ≠ [] := by decide

/-- Claim C5, amended: a finalized transaction is rejected as Garbage with
no ledger access at all; a non-finalized transaction with a duplicated
outpoint is rejected as Garbage with no insertion and no ledger change,
but lookups of the inputs preceding the first duplicated one do occur. -/
theorem C5_malformed_garbage (ctx : Secp) (privkey : Nat) (insFail : Nat → Bool)
    (ledger : Ledger) (tx : SpendTx) :
    (tx.finalized = true →
      process_sign_message ctx privkey insFail ledger tx =
        { result := .err .Garbage, ledger := ledger, events := [] }) ∧
    (tx.finalized = false →
      (∃ inp ∈ tx.inputs, 1 < dupCount tx.inputs inp.previous_output) →
      (process_sign_message ctx privkey insFail ledger tx).result = .err .Garbage ∧
      (process_sign_message ctx privkey insFail ledger tx).ledger = ledger ∧
      ∀ e ∈ (process_sign_message ctx privkey insFail ledger tx).events,
        ∃ o, e = DbEvent.lookup o) := by
  constructor
  · intro hfin
    simp [process_sign_message, hfin]
  · intro hfin hdup
    obtain ⟨evs, hg, hall⟩ := gatherSignatures_garbage tx.inputs ledger tx.inputs hdup
    refine ⟨?_, ?_, ?_⟩
    · simp [process_sign_message, hfin, hg]
    · simp [process_sign_message, hfin, hg]
    · intro e he
      apply hall e
      simpa [process_sign_message, hfin, hg] using he

/-- Witness for C5 (amended): a concrete finalized transaction and a
concrete duplicated-outpoint transaction. -/
theorem C5_malformed_garbage_witness :
    (process_sign_message ctxC 7 (fun _ => false) []
        { inputs := [⟨⟨1, 0⟩, [], some 5⟩], finalized := true } =
      { result := .err .Garbage, ledger := [], events := [] }) ∧
    (process_sign_message ctxC 7 (fun _ => false) []
        { inputs := [⟨⟨2, 1⟩, [], some 6⟩, ⟨⟨2, 1⟩, [], some 6⟩],
          finalized := false }).result = .err .Garbage :=
  ⟨(C5_malformed_garbage ctxC 7 (fun _ => false) []
      { inputs := [⟨⟨1, 0⟩, [], some 5⟩], finalized := true }).1 rfl,
   ((C5_malformed_garbage ctxC 7 (fun _ => false) []
      { inputs := [⟨⟨2, 1⟩, [], some 6⟩, ⟨⟨2, 1⟩, [], some 6⟩], finalized := false }).2
      rfl ⟨⟨⟨2, 1⟩, [], some 6⟩, by simp, by decide⟩).1⟩

/-- Claim C4: for a non-finalized request without duplicated outpoints where
at least one but not all input outpoints have a ledger record,
process_sign_message returns Ok with the null result (Refuse), the ledger
is unchanged, and the only database accesses are the per-input lookups —
no record is added and no signature is computed. -/
theorem C4_partial_overlap_refusal (ctx : Secp) (privkey : Nat) (insFail : Nat → Bool)
    (ledger : Ledger) (tx : SpendTx)
    (hfin : tx.finalized = false)
    (hd : DistinctPrevouts tx.inputs)
    (hsome : ∃ inp ∈ tx.inputs, (db_signed_outpoint ledger inp.previous_output).isSome)
    (hnotall : ∃ inp ∈ tx.inputs, db_signed_outpoint ledger inp.previous_output = none) :
    process_sign_message ctx privkey insFail ledger tx =
      { result := .ok null_signature, ledger := ledger,
        events := tx.inputs.map (fun inp => DbEvent.lookup inp.previous_output) } := by
  have hdup : ∀ inp ∈ tx.inputs, ¬ 1 < dupCount tx.inputs inp.previous_output :=
    fun inp hm => dupCount_le_one_of_distinct tx.inputs hd inp hm
  have hg := gatherSignatures_eq_of_sane tx.inputs ledger tx.inputs hdup
  have hlen : ¬ (tx.inputs.filterMap
      (fun inp => db_signed_outpoint ledger inp.previous_output)).length =
      tx.inputs.length := by
    rw [length_filterMap_eq]
    intro hc
    obtain ⟨inp, hm, hn⟩ := hnotall
    have := List.filter_length_eq_length.mp hc inp hm
    rw [hn] at this
    simp at this
  have hemp : ¬ (tx.inputs.filterMap
      (fun inp => db_signed_outpoint ledger inp.previous_output)).isEmpty = true := by
    rw [List.isEmpty_iff]
    intro hc
    obtain ⟨inp, hm, hs⟩ := hsome
    obtain ⟨b, hb⟩ := Option.isSome_iff_exists.mp hs
    have : b ∈ tx.inputs.filterMap
        (fun inp => db_signed_outpoint ledger inp.previous_output) :=
      List.mem_filterMap.mpr ⟨inp, hm, hb⟩
    rw [hc] at this
    cases this
  simp only [process_sign_message, hfin, hg]
  simp [hlen, hemp, null_signature]

/-- Witness for C4: ledger has a record for the first input's outpoint but
not the second's. -/
theorem C4_partial_overlap_refusal_witness :
    process_sign_message ctxC 7 (fun _ => false) [(⟨1, 0⟩, [42])]
        { inputs := [⟨⟨1, 0⟩, [], some 5⟩, ⟨⟨2, 1⟩, [], some 6⟩], finalized := false } =
      { result := .ok null_signature, ledger := [(⟨1, 0⟩, [42])],
        events := [DbEvent.lookup ⟨1, 0⟩, DbEvent.lookup ⟨2, 1⟩] } := by
  have h := C4_partial_overlap_refusal ctxC 7 (fun _ => false) [(⟨1, 0⟩, [42])]
    { inputs := [⟨⟨1, 0⟩, [], some 5⟩, ⟨⟨2, 1⟩, [], some 6⟩], finalized := false }
    rfl (by decide)
    ⟨⟨⟨1, 0⟩, [], some 5⟩, by simp, by decide⟩
    ⟨⟨⟨2, 1⟩, [], some 6⟩, by simp, by decide⟩
  simpa using h

/-- Claim C1, counterexample: with a ledger record for the input's outpoint
whose stored signature fails verification (a verification predicate that
rejects everything — the shape of a resubmission whose non-signed fields
were altered after the original signing), the spec-modelled verifying
attach demands Refuse, but process_sign_message returns the transaction
with the stored signature attached unverified — not the null result. -/
theorem C1_counterexample :
    specReplayRefuses (fun _ _ _ => false) (ctxC.pubOf 7) [(⟨1, 0⟩, [42])]
      [⟨⟨1, 0⟩, [], some 5⟩] = true ∧
    (process_sign_message ctxC 7 (fun _ => false) [(⟨1, 0⟩, [42])]
        { inputs := [⟨⟨1, 0⟩, [], some 5⟩], finalized := false }).result =
      .ok { tx := some { inputs := [⟨⟨1, 0⟩, [(1007, [42, 1])], some 5⟩], finalized := false } } ∧
    (process_sign_message ctxC 7 (fun _ => false) [(⟨1, 0⟩, [42])]
        { inputs := [⟨⟨1, 0⟩, [], some 5⟩], finalized := false }).result ≠
      .ok null_signature := by decide

/-- Claim C1, amended: in the full-replay path the stored signatures are
attached without any verification (no sighash re-derivation, no validity
check) and the transaction is returned as Sign(tx) unconditionally; a
tampered resubmission receives the stored — now invalid — signatures
rather than Refuse. -/
theorem C1_replay_attaches_unverified (ctx : Secp) (privkey : Nat)
    (insFail : Nat → Bool) (ledger : Ledger) (tx : SpendTx)
    (hfin : tx.finalized = false) (hd : DistinctPrevouts tx.inputs)
    (hall : ∀ inp ∈ tx.inputs, (db_signed_outpoint ledger inp.previous_output).isSome) :
    process_sign_message ctx privkey insFail ledger tx =
      { result := .ok { tx := some ⟨attachStored (ctx.pubOf privkey) tx.inputs
            (tx.inputs.filterMap (fun inp => db_signed_outpoint ledger inp.previous_output)),
          tx.finalized⟩ },
        ledger := ledger,
        events := tx.inputs.map (fun inp => DbEvent.lookup inp.previous_output) } :=
  process_full_replay ctx privkey insFail ledger tx hfin hd hall

/-- Witness for C1 (amended) at the counterexample's input. -/
theorem C1_replay_attaches_unverified_witness :
    process_sign_message ctxC 7 (fun _ => false) [(⟨1, 0⟩, [42])]
        { inputs := [⟨⟨1, 0⟩, [], some 5⟩], finalized := false } =
      { result := .ok { tx := some { inputs := [⟨⟨1, 0⟩, [(1007, [42, 1])], some 5⟩], finalized := false } }, ledger := [(⟨1, 0⟩, [42])], events := [DbEvent.lookup ⟨1, 0⟩] } := by
  have h := C1_replay_attaches_unverified ctxC 7 (fun _ => false) [(⟨1, 0⟩, [42])]
    { inputs := [⟨⟨1, 0⟩, [], some 5⟩], finalized := false } rfl (by decide) (by decide)
  simpa using h

/-- Claim C2, counterexample: a fresh 2-input request whose second input
has no sighash (missing input-satisfaction data) returns the propagated
InsanePsbtMissingInput error, but the ledger now holds one new record (for
the first input's outpoint) — not zero. -/
theorem C2_counterexample :
    (process_sign_message ctxC 7 (fun _ => false) []
        { inputs := [⟨⟨1, 0⟩, [], some 5⟩, ⟨⟨2, 1⟩, [], none⟩],
          finalized := false }).result = .err .InsanePsbtMissingInput ∧
    (process_sign_message ctxC 7 (fun _ => false) []
        { inputs := [⟨⟨1, 0⟩, [], some 5⟩, ⟨⟨2, 1⟩, [], none⟩],
          finalized := false }).ledger = [(⟨1, 0⟩, [507])] ∧
    (process_sign_message ctxC 7 (fun _ => false) []
        { inputs := [⟨⟨1, 0⟩, [], some 5⟩, ⟨⟨2, 1⟩, [], none⟩],
          finalized := false }).ledger ≠ [] := by decide

/-- Claim C2, amended: persistence is per input and interleaved with
signing, not an atomic batch: if sighash computation fails on input k of a
fresh N-input request, the propagated InsanePsbtMissingInput error is
returned but the ledger now holds records for exactly the k inputs
preceding the failing one. -/
theorem C2_per_input_persistence (ctx : Secp) (privkey : Nat) (ledger : Ledger)
    (pre : List SpendTxInput) (bad : SpendTxInput) (post : List SpendTxInput)
    (hd : DistinctPrevouts (pre ++ bad :: post))
    (hnone : ∀ inp ∈ pre ++ bad :: post,
      db_signed_outpoint ledger inp.previous_output = none)
    (hsig : ∀ inp ∈ pre, inp.sighash.isSome)
    (hps : ∀ inp ∈ pre, sigsGet inp.partial_sigs (ctx.pubOf privkey) = none)
    (hbad : bad.sighash = none) :
    (process_sign_message ctx privkey (fun _ => false) ledger
        { inputs := pre ++ bad :: post, finalized := false }).result =
      .err .InsanePsbtMissingInput ∧
    (process_sign_message ctx privkey (fun _ => false) ledger
        { inputs := pre ++ bad :: post, finalized := false }).ledger =
      ledger ++ freshRecords ctx privkey pre := by
  have hdup : ∀ inp ∈ pre ++ bad :: post,
      ¬ 1 < dupCount (pre ++ bad :: post) inp.previous_output :=
    fun inp hm => dupCount_le_one_of_distinct (pre ++ bad :: post) hd inp hm
  have hg := gatherSignatures_eq_of_sane (pre ++ bad :: post) ledger (pre ++ bad :: post) hdup
  have hnil : (pre ++ bad :: post).filterMap
      (fun inp => db_signed_outpoint ledger inp.previous_output) = [] :=
    filterMap_eq_nil_of_none _ _ hnone
  rw [hnil] at hg
  have hlen : ¬ 0 = pre.length + (post.length + 1) := by omega
  have hdpre : DistinctPrevouts pre :=
    List.Pairwise.sublist (List.sublist_append_left pre (bad :: post)) hd
  have hnr : ∀ inp ∈ pre, ∀ r ∈ ledger, r.fst ≠ inp.previous_output :=
    fun inp hm r hr =>
      (db_signed_outpoint_none_iff ledger inp.previous_output).mp
        (hnone inp (List.mem_append_left _ hm)) r hr
  have hsf := signFresh_fail_sighash ctx privkey (ctx.pubOf privkey) pre bad post 0 ledger
    hdpre hsig hps hnr hbad
  constructor
  · simp only [process_sign_message, hg]
    simp [hlen, hsf]
  · simp only [process_sign_message, hg]
    simp [hlen, hsf]

/-- Witness for C2 (amended) at the counterexample's input. -/
theorem C2_per_input_persistence_witness :
    (process_sign_message ctxC 7 (fun _ => false) []
        { inputs := [⟨⟨1, 0⟩, [], some 5⟩] ++ ⟨⟨2, 1⟩, [], none⟩ :: [],
          finalized := false }).result = .err .InsanePsbtMissingInput ∧
    (process_sign_message ctxC 7 (fun _ => false) []
        { inputs := [⟨⟨1, 0⟩, [], some 5⟩] ++ ⟨⟨2, 1⟩, [], none⟩ :: [],
          finalized := false }).ledger =
      [] ++ freshRecords ctxC 7 [⟨⟨1, 0⟩, [], some 5⟩] :=
  C2_per_input_persistence ctxC 7 [] [⟨⟨1, 0⟩, [], some 5⟩] ⟨⟨2, 1⟩, [], none⟩ []
    (by decide) (by decide) (by decide) (by decide) rfl

/-- Claim C6: a valid, never-before-seen, non-finalized transaction with
pairwise-distinct input outpoints is signed on the first call; the second
call with the identical transaction takes the full-replay path and returns
the identical signed transaction, and the ledger then contains exactly one
record per input outpoint. -/
theorem C6_idempotence (ctx : Secp) (privkey : Nat) (ledger : Ledger) (tx : SpendTx)
    (hfin : tx.finalized = false) (hd : DistinctPrevouts tx.inputs)
    (hnone : ∀ inp ∈ tx.inputs, db_signed_outpoint ledger inp.previous_output = none)
    (hsig : ∀ inp ∈ tx.inputs, inp.sighash.isSome)
    (hps : ∀ inp ∈ tx.inputs, sigsGet inp.partial_sigs (ctx.pubOf privkey) = none) :
    (process_sign_message ctx privkey (fun _ => false) ledger tx).result =
      .ok { tx := some (freshSigned ctx privkey (ctx.pubOf privkey) tx) } ∧
    (process_sign_message ctx privkey (fun _ => false)
        (process_sign_message ctx privkey (fun _ => false) ledger tx).ledger tx).result =
      .ok { tx := some (freshSigned ctx privkey (ctx.pubOf privkey) tx) } ∧
    ∀ inp ∈ tx.inputs,
      recordCount (process_sign_message ctx privkey (fun _ => false)
          (process_sign_message ctx privkey (fun _ => false) ledger tx).ledger tx).ledger
        inp.previous_output = 1 := by
  by_cases hne : tx.inputs = []
  · have h0 := process_zero_inputs ctx privkey (fun _ => false) ledger tx hfin hne
    have hfs : freshSigned ctx privkey (ctx.pubOf privkey) tx = tx := by
      obtain ⟨ins, fin⟩ := tx
      simp only at hne
      subst hne
      simp [freshSigned]
    rw [h0]
    have h0' := process_zero_inputs ctx privkey (fun _ => false) ledger tx hfin hne
    refine ⟨by rw [hfs], by rw [h0', hfs], ?_⟩
    intro inp hm
    rw [hne] at hm
    cases hm
  · have h1 := process_fresh_success ctx privkey ledger tx hfin hd hne hnone hsig hps
    have hall2 : ∀ inp ∈ tx.inputs,
        db_signed_outpoint (ledger ++ freshRecords ctx privkey tx.inputs)
          inp.previous_output =
        some (ctx.der (ctx.sign (inp.sighash.getD 0) privkey)) := by
      intro inp hm
      rw [db_signed_outpoint_append ledger _ _
        (fun r hr => (db_signed_outpoint_none_iff ledger inp.previous_output).mp
          (hnone inp hm) r hr)]
      exact db_signed_outpoint_freshRecords ctx privkey tx.inputs hd inp hm
    have h2 := process_full_replay ctx privkey (fun _ => false)
      (ledger ++ freshRecords ctx privkey tx.inputs) tx hfin hd
      (fun inp hm => by rw [hall2 inp hm]; rfl)
    have hfm : tx.inputs.filterMap
        (fun inp => db_signed_outpoint (ledger ++ freshRecords ctx privkey tx.inputs)
          inp.previous_output) =
        tx.inputs.map (fun inp => ctx.der (ctx.sign (inp.sighash.getD 0) privkey)) :=
      filterMap_eq_map_of_some _ _ _ hall2
    have hatt : attachStored (ctx.pubOf privkey) tx.inputs
        (tx.inputs.map (fun inp => ctx.der (ctx.sign (inp.sighash.getD 0) privkey))) =
        tx.inputs.map (freshInput ctx privkey (ctx.pubOf privkey)) := by
      rw [attachStored_map]
      exact List.map_congr_left (fun inp _ => by simp [freshInput])
    rw [hfm, hatt] at h2
    have hled1 : (process_sign_message ctx privkey (fun _ => false) ledger tx).ledger =
        ledger ++ freshRecords ctx privkey tx.inputs := by rw [h1]
    refine ⟨by rw [h1], ?_, ?_⟩
    · rw [hled1, h2]
      simp [freshSigned]
    · intro inp hm
      rw [hled1, h2]
      simp only
      rw [recordCount_append]
      have hz : recordCount ledger inp.previous_output = 0 :=
        (recordCount_eq_zero_iff ledger inp.previous_output).mpr
          ((db_signed_outpoint_none_iff ledger inp.previous_output).mp (hnone inp hm))
      rw [hz, recordCount_freshRecords_eq_one ctx privkey tx.inputs hd inp hm]

/-- Witness for C6 at a concrete fresh one-input transaction. -/
theorem C6_idempotence_witness :
    (process_sign_message ctxC 7 (fun _ => false) []
        { inputs := [⟨⟨1, 0⟩, [], some 5⟩], finalized := false }).result =
      .ok { tx := some (freshSigned ctxC 7 (ctxC.pubOf 7)
        { inputs := [⟨⟨1, 0⟩, [], some 5⟩], finalized := false }) } ∧
    (process_sign_message ctxC 7 (fun _ => false)
        (process_sign_message ctxC 7 (fun _ => false) []
          { inputs := [⟨⟨1, 0⟩, [], some 5⟩], finalized := false }).ledger
        { inputs := [⟨⟨1, 0⟩, [], some 5⟩], finalized := false }).result =
      .ok { tx := some (freshSigned ctxC 7 (ctxC.pubOf 7)
        { inputs := [⟨⟨1, 0⟩, [], some 5⟩], finalized := false }) } ∧
    ∀ inp ∈ ({ inputs := [⟨⟨1, 0⟩, [], some 5⟩], finalized := false } : SpendTx).inputs,
      recordCount (process_sign_message ctxC 7 (fun _ => false)
          (process_sign_message ctxC 7 (fun _ => false) []
            { inputs := [⟨⟨1, 0⟩, [], some 5⟩], finalized := false }).ledger
          { inputs := [⟨⟨1, 0⟩, [], some 5⟩], finalized := false }).ledger
        inp.previous_output = 1 :=
  C6_idempotence ctxC 7 []
    { inputs := [⟨⟨1, 0⟩, [], some 5⟩], finalized := false }
    rfl (by decide) (by decide) (by decide) (by decide)

/-- Claim C7, counterexample: with an empty ledger (zero prior signatures
found for all inputs), a hostile request whose PSBT input already carries a
partial signature under the server's own public key makes the fresh-path
assert fire: the call panics instead of returning Ok or Err. -/
theorem C7_counterexample :
    db_signed_outpoint [] ⟨1, 0⟩ = none ∧
    (process_sign_message ctxC 7 (fun _ => false) []
        { inputs := [⟨⟨1, 0⟩, [(1007, [9])], some 5⟩], finalized := false }).result =
      .panicked := by decide

/-- Claim C7, amended: process_sign_message never panics — the fresh-path
assert is unreachable — provided no input of the submitted PSBT already
carries a partial signature under the server's own public key; a hostile
PSBT that does carry one can make the assert fire. -/
theorem C7_no_panic_without_hostile_presig (ctx : Secp) (privkey : Nat)
    (insFail : Nat → Bool) (ledger : Ledger) (tx : SpendTx)
    (hps : ∀ inp ∈ tx.inputs, sigsGet inp.partial_sigs (ctx.pubOf privkey) = none) :
    (process_sign_message ctx privkey insFail ledger tx).result ≠ .panicked := by
  by_cases hfin : tx.finalized = true
  · simp [process_sign_message, hfin]
  · rw [Bool.not_eq_true] at hfin
    rcases hg : gatherSignatures tx.inputs ledger tx.inputs with ⟨res, evs⟩
    cases res with
    | none => simp [process_sign_message, hfin, hg]
    | some sigs =>
      by_cases hlen : sigs.length = tx.inputs.length
      · simp [process_sign_message, hfin, hg, hlen]
      · by_cases hemp : sigs.isEmpty = false
        · simp [process_sign_message, hfin, hg, hlen, hemp]
        · have hempT : sigs.isEmpty = true := by
            revert hemp
            cases sigs.isEmpty <;> simp
          cases hsf : signFresh ctx privkey (ctx.pubOf privkey) insFail 0 tx.inputs ledger with
          | done ni l2 evs2 =>
            simp [process_sign_message, hfin, hg, hlen, hemp, hsf, hempT]
          | fail e l2 evs2 =>
            simp [process_sign_message, hfin, hg, hlen, hemp, hsf]
          | panicked l2 evs2 =>
            exact absurd hsf (signFresh_no_panicked ctx privkey (ctx.pubOf privkey)
              insFail tx.inputs 0 ledger hps l2 evs2)

/-- Witness for C7 (amended): a request without hostile pre-signatures does
not panic. -/
theorem C7_no_panic_without_hostile_presig_witness :
    (process_sign_message ctxC 7 (fun _ => false) []
        { inputs := [⟨⟨1, 0⟩, [], some 5⟩], finalized := false }).result ≠ .panicked :=
  C7_no_panic_without_hostile_presig ctxC 7 (fun _ => false) []
    { inputs := [⟨⟨1, 0⟩, [], some 5⟩], finalized := false } (by decide)

/-- Claim C8: whenever a signed transaction is returned, every input
outpoint has a durable ledger record by the time of the return; and in the
fresh-signing path, if the persistence step for an input fails, the call
returns a database error and no signed transaction. -/
theorem C8_persist_before_return :
    (∀ (ctx : Secp) (privkey : Nat) (insFail : Nat → Bool) (ledger : Ledger)
        (tx tx' : SpendTx),
      (process_sign_message ctx privkey insFail ledger tx).result =
        .ok { tx := some tx' } →
      ∀ inp ∈ tx.inputs,
        (db_signed_outpoint (process_sign_message ctx privkey insFail ledger tx).ledger
          inp.previous_output).isSome) ∧
    (∀ (ctx : Secp) (privkey : Nat) (insFail : Nat → Bool) (ledger : Ledger)
        (pre : List SpendTxInput) (bad : SpendTxInput) (post : List SpendTxInput),
      DistinctPrevouts (pre ++ bad :: post) →
      (∀ inp ∈ pre ++ bad :: post,
        db_signed_outpoint ledger inp.previous_output = none) →
      (∀ inp ∈ pre, inp.sighash.isSome) →
      (∀ inp ∈ pre, sigsGet inp.partial_sigs (ctx.pubOf privkey) = none) →
      bad.sighash.isSome →
      sigsGet bad.partial_sigs (ctx.pubOf privkey) = none →
      (∀ j, j < pre.length → insFail j = false) →
      insFail pre.length = true →
      (process_sign_message ctx privkey insFail ledger
          { inputs := pre ++ bad :: post, finalized := false }).result =
        .err (.Database .ioFailure)) := by
  constructor
  · intro ctx privkey insFail ledger tx tx' h inp hm
    by_cases hfin : tx.finalized = true
    · simp [process_sign_message, hfin] at h
    · rw [Bool.not_eq_true] at hfin
      rcases hg : gatherSignatures tx.inputs ledger tx.inputs with ⟨res, evs⟩
      cases res with
      | none => simp [process_sign_message, hfin, hg] at h
      | some sigs =>
        by_cases hlen : sigs.length = tx.inputs.length
        · obtain ⟨hsigs, _⟩ := gatherSignatures_some tx.inputs ledger tx.inputs sigs evs hg
          have hflen : (tx.inputs.filter
              (fun x => (db_signed_outpoint ledger x.previous_output).isSome)).length =
              tx.inputs.length := by
            rw [← length_filterMap_eq, ← hsigs]
            exact hlen
          have hallsome := List.filter_length_eq_length.mp hflen inp hm
          simpa [process_sign_message, hfin, hg, hlen] using hallsome
        · by_cases hemp : sigs.isEmpty = false
          · simp [process_sign_message, hfin, hg, hlen, hemp, null_signature] at h
          · have hempT : sigs.isEmpty = true := by
              revert hemp
              cases sigs.isEmpty <;> simp
            cases hsf : signFresh ctx privkey (ctx.pubOf privkey) insFail 0 tx.inputs ledger with
            | done ni l2 evs2 =>
              obtain ⟨_, hcov⟩ := signFresh_done_covers ctx privkey (ctx.pubOf privkey)
                insFail tx.inputs 0 ledger ni l2 evs2 hsf
              have := (db_signed_outpoint_isSome_iff l2 inp.previous_output).mpr
                (hcov inp hm)
              simpa [process_sign_message, hfin, hg, hlen, hemp, hsf, hempT] using this
            | fail e l2 evs2 =>
              simp [process_sign_message, hfin, hg, hlen, hemp, hsf] at h
            | panicked l2 evs2 =>
              simp [process_sign_message, hfin, hg, hlen, hemp, hsf] at h
  · intro ctx privkey insFail ledger pre bad post hd hnone hsig hps hbs hbps hok hfail
    have hdup : ∀ inp ∈ pre ++ bad :: post,
        ¬ 1 < dupCount (pre ++ bad :: post) inp.previous_output :=
      fun inp hm => dupCount_le_one_of_distinct (pre ++ bad :: post) hd inp hm
    have hg := gatherSignatures_eq_of_sane (pre ++ bad :: post) ledger (pre ++ bad :: post) hdup
    have hnil : (pre ++ bad :: post).filterMap
        (fun inp => db_signed_outpoint ledger inp.previous_output) = [] :=
      filterMap_eq_nil_of_none _ _ hnone
    rw [hnil] at hg
    have hlen : ¬ 0 = pre.length + (post.length + 1) := by omega
    have hdpre : DistinctPrevouts pre :=
      List.Pairwise.sublist (List.sublist_append_left pre (bad :: post)) hd
    have hnr : ∀ inp ∈ pre, ∀ r ∈ ledger, r.fst ≠ inp.previous_output :=
      fun inp hm r hr =>
        (db_signed_outpoint_none_iff ledger inp.previous_output).mp
          (hnone inp (List.mem_append_left _ hm)) r hr
    have hok0 : ∀ j, j < pre.length → insFail (0 + j) = false := by
      intro j hj
      simpa using hok j hj
    have hfail0 : insFail (0 + pre.length) = true := by simpa using hfail
    have hsf := signFresh_fail_io ctx privkey (ctx.pubOf privkey) insFail pre bad post
      0 ledger hdpre hsig hps hnr hok0 hfail0 hbs hbps
    simp only [process_sign_message, hg]
    simp [hlen, hsf]

/-- Witness for C8: a successful fresh signing leaves a record for the
input's outpoint, and an injected persistence failure yields a database
error. -/
theorem C8_persist_before_return_witness :
    (db_signed_outpoint (process_sign_message ctxC 7 (fun _ => false) []
        { inputs := [⟨⟨1, 0⟩, [], some 5⟩], finalized := false }).ledger
      ⟨1, 0⟩).isSome ∧
    (process_sign_message ctxC 7 (fun _ => true) []
        { inputs := [] ++ ⟨⟨1, 0⟩, [], some 5⟩ :: [], finalized := false }).result =
      .err (.Database .ioFailure) := by
  constructor
  · have h := C8_persist_before_return.1 ctxC 7 (fun _ => false) []
      { inputs := [⟨⟨1, 0⟩, [], some 5⟩], finalized := false }
      { inputs := [⟨⟨1, 0⟩, [(1007, [507, 1])], some 5⟩], finalized := false }
      (by decide) ⟨⟨1, 0⟩, [], some 5⟩ (by simp)
    simpa using h
  · exact C8_persist_before_return.2 ctxC 7 (fun _ => true) [] []
      ⟨⟨1, 0⟩, [], some 5⟩ [] (by decide) (by decide) (by decide) (by decide)
      rfl rfl (by simp) rfl

end Cosignerd
